import Mathlib

/-!
Verification of the NIORA storefront core (order ledger, analytics
aggregator, access control) against its natural-language specification.

The development shallowly embeds the relevant parts of `src/src/App.tsx`:

* the order item snapshot codec (`JSON.stringify` at order placement,
  `JSON.parse` at aggregation time), modelled as an executable serializer
  and parser over the snapshot grammar that the code emits;
* the client dashboard aggregation `dashboardStats` (lines 123-187);
* the order placement endpoint `POST /api/orders` (lines 1804-1809);
* the auth middleware chain `authenticateToken` / `isAdmin`
  (lines 1737-1752);
* the admin stats endpoint `GET /api/admin/stats` (lines 1816-1836).

JavaScript numbers are modelled as exact integers (`Int`); all monetary
amounts that appear in the repository are integral rupee amounts.
-/

namespace Niora

/-- One line of the frozen order snapshot: the record with keys `name`,
`price`, `quantity` that the checkout serializes into each order row and
the aggregators read back. -/
structure Item where
  name : String
  price : Int
  quantity : Int
deriving DecidableEq, Repr

/-! ## Decimal digits -/

/-- The character of a single decimal digit value. -/
def digitChr (d : Nat) : Char := Char.ofNat (48 + d)

/-- Worker for `natChars`; the fuel argument only serves termination and
any value above the argument is enough (`natCharsAux_adequate`). -/
def natCharsAux : Nat → Nat → List Char
  | 0, _ => []
  | fuel + 1, n =>
    if n < 10 then [digitChr n]
    else natCharsAux fuel (n / 10) ++ [digitChr (n % 10)]

/-- Decimal digit characters of a natural number, most significant first,
exactly the digits that `JSON.stringify` prints for it. -/
def natChars (n : Nat) : List Char := natCharsAux (n + 1) n

/-- Character run of an integer: a minus sign when negative, then the
decimal digits. -/
def intChars (i : Int) : List Char :=
  if i < 0 then '-' :: natChars i.natAbs else natChars i.toNat

/-- Numeric value of a run of decimal digit characters. -/
def digitsVal (l : List Char) : Nat :=
  l.foldl (fun a c => a * 10 + (c.toNat - 48)) 0

/-- Longest digit prefix of the input, together with the remainder. -/
def takeDigits : List Char → List Char × List Char
  | [] => ([], [])
  | c :: rest =>
    if c.isDigit then
      let (d, r) := takeDigits rest
      (c :: d, r)
    else ([], c :: rest)

/-- Reads a nonempty run of decimal digits as a natural number. -/
def parseNatNum (s : List Char) : Option (Nat × List Char) :=
  match takeDigits s with
  | ([], _) => none
  | (ds, r) => some (digitsVal ds, r)

/-- Reads an optionally minus-signed decimal integer. -/
def parseIntNum (s : List Char) : Option (Int × List Char) :=
  match s with
  | [] => none
  | c :: rest =>
    if c = '-' then
      match parseNatNum rest with
      | some (n, r) => some (-(n : Int), r)
      | none => none
    else
      match parseNatNum (c :: rest) with
      | some (n, r) => some ((n : Int), r)
      | none => none

/-! ## String escaping

The serializer escapes exactly the characters that `JSON.stringify`
escapes in a string literal: the quote, the backslash, the named control
escapes, and the remaining control characters as lowercase
`\u00..` sequences. All characters at or above `0x20` other than the
quote and the backslash pass through unescaped. -/

/-- Hexadecimal digit character (lowercase), as printed inside a
`\u` escape. -/
def hexChr (d : Nat) : Char :=
  if d < 10 then Char.ofNat (48 + d) else Char.ofNat (87 + d)

/-- Value of one hexadecimal digit character, `none` when it is not one. -/
def hexVal (c : Char) : Option Nat :=
  if 48 ≤ c.toNat ∧ c.toNat ≤ 57 then some (c.toNat - 48)
  else if 97 ≤ c.toNat ∧ c.toNat ≤ 102 then some (c.toNat - 87)
  else if 65 ≤ c.toNat ∧ c.toNat ≤ 70 then some (c.toNat - 55)
  else none

/-- JSON escape of one character, as the list of characters that
`JSON.stringify` emits for it inside a string literal. -/
def escChar (c : Char) : List Char :=
  if c = '"' then ['\\', '"']
  else if c = '\\' then ['\\', '\\']
  else if c = '\x08' then ['\\', 'b']
  else if c = '\t' then ['\\', 't']
  else if c = '\n' then ['\\', 'n']
  else if c = '\x0c' then ['\\', 'f']
  else if c = '\r' then ['\\', 'r']
  else if c.toNat < 32 then
    ['\\', 'u', '0', '0', hexChr (c.toNat / 16), hexChr (c.toNat % 16)]
  else [c]

/-- Body of a JSON string literal for `s` (no surrounding quotes). -/
def escString (s : String) : List Char := s.data.flatMap escChar

/-- Inverse of the two-character named escapes. -/
def unescChar : Char → Option Char
  | '"' => some '"'
  | '\\' => some '\\'
  | 'b' => some '\x08'
  | 't' => some '\t'
  | 'n' => some '\n'
  | 'f' => some '\x0c'
  | 'r' => some '\r'
  | _ => none

/-- Reads the body of a JSON string literal up to its closing quote,
returning the unescaped characters and the remainder after the quote. -/
def parseStrChars : List Char → Option (List Char × List Char)
  | [] => none
  | c :: rest =>
    if c = '"' then some ([], rest)
    else if c = '\\' then
      match rest with
      | [] => none
      | e :: rest2 =>
        if e = 'u' then
          match rest2 with
          | a :: b :: c2 :: d :: rest3 =>
            match hexVal a, hexVal b, hexVal c2, hexVal d with
            | some va, some vb, some vc, some vd =>
              match parseStrChars rest3 with
              | some (acc, r) =>
                some (Char.ofNat (((va * 16 + vb) * 16 + vc) * 16 + vd) :: acc, r)
              | none => none
            | _, _, _, _ => none
          | _ => none
        else
          match unescChar e with
          | some ch =>
            match parseStrChars rest2 with
            | some (acc, r) => some (ch :: acc, r)
            | none => none
          | none => none
    else
      match parseStrChars rest with
      | some (acc, r) => some (c :: acc, r)
      | none => none

/-! ## The snapshot codec

`stringifyItems` is the text that `JSON.stringify` produces on the list
of snapshot line records, key order `name`, `price`, `quantity`, no
whitespace. `parseItems` reads exactly that output language back; any
text outside it (in particular text that is not a JSON array of such
records) is rejected with `none`, which models `JSON.parse` throwing at
aggregation time. -/

/-- Opening of a serialized line up to the quote of the name value. -/
def nameKey : List Char :=
  ['\x7b', '"', 'n', 'a', 'm', 'e', '"', ':', '"']

/-- Separator between the name value and the price value. -/
def priceKey : List Char := [',', '"', 'p', 'r', 'i', 'c', 'e', '"', ':']

/-- Separator between the price value and the quantity value. -/
def qtyKey : List Char :=
  [',', '"', 'q', 'u', 'a', 'n', 't', 'i', 't', 'y', '"', ':']

/-- Character run of one serialized snapshot line. -/
def itemChars (it : Item) : List Char :=
  nameKey ++ (escString it.name ++ '"' :: (priceKey
    ++ (intChars it.price ++ (qtyKey
    ++ (intChars it.quantity ++ ['\x7d'])))))

/-- Comma-separated character runs of the serialized lines. -/
def itemsBody : List Item → List Char
  | [] => []
  | [it] => itemChars it
  | it :: rest => itemChars it ++ ',' :: itemsBody rest

/-- The stored snapshot text of an item list: the output of
`JSON.stringify` on the corresponding array of records. -/
def stringifyItems (l : List Item) : String :=
  ⟨'[' :: (itemsBody l ++ [']'])⟩

/-- Strips the literal prefix `p` off `s`, failing when `s` does not
start with it. -/
def expects : List Char → List Char → Option (List Char)
  | [], s => some s
  | _ :: _, [] => none
  | p :: ps, c :: cs => if c = p then expects ps cs else none

/-- Reads one serialized snapshot line. -/
def parseItem (s : List Char) : Option (Item × List Char) := do
  let s1 ← expects nameKey s
  let (nm, s2) ← parseStrChars s1
  let s3 ← expects priceKey s2
  let (p, s4) ← parseIntNum s3
  let s5 ← expects qtyKey s4
  let (q, s6) ← parseIntNum s5
  let s7 ← expects ['\x7d'] s6
  return (⟨⟨nm⟩, p, q⟩, s7)

/-- Reads one or more comma-separated serialized lines followed by the
closing bracket. The fuel argument only serves termination; any value at
least the remaining input length is enough. -/
def parseItemsAux : Nat → List Char → Option (List Item × List Char)
  | 0, _ => none
  | fuel + 1, s =>
    match parseItem s with
    | none => none
    | some (it, s1) =>
      match s1 with
      | ']' :: r => some ([it], r)
      | ',' :: r =>
        match parseItemsAux fuel r with
        | some (its, r2) => some (it :: its, r2)
        | none => none
      | _ => none

/-- Reads a full stored snapshot, the model of `JSON.parse` on the order
items column: `some` on the output language of `stringifyItems`, `none`
on anything else. -/
def parseItems (s : String) : Option (List Item) :=
  match s.data with
  | '[' :: rest =>
    if rest = [']'] then some []
    else
      match parseItemsAux (rest.length + 1) rest with
      | some (its, []) => some its
      | _ => none
  | _ => none

/-! ## Codec round trip: digits -/

/-- Digit characters carry their value and satisfy `isDigit`. -/
theorem digitChr_spec (d : Nat) (h : d < 10) :
    (digitChr d).toNat - 48 = d ∧ (digitChr d).isDigit = true := by
  interval_cases d <;> exact ⟨by decide, by decide⟩

/-- Any fuel above the argument computes the same digit run. -/
theorem natCharsAux_adequate :
    ∀ (n fuel : Nat), n < fuel → natCharsAux fuel n = natChars n := by
  intro n
  induction n using Nat.strongRecOn with
  | _ n ih =>
    intro fuel h
    match fuel, h with
    | f + 1, _ =>
      show natCharsAux (f + 1) n = natCharsAux (n + 1) n
      by_cases h10 : n < 10
      · simp [natCharsAux, h10]
      · have hd : n / 10 < n := Nat.div_lt_self (by omega) (by omega)
        simp only [natCharsAux, if_neg h10]
        rw [ih (n / 10) hd f (by omega), ih (n / 10) hd n (by omega)]

/-- Recursive description of `natChars`. -/
theorem natChars_unfold (n : Nat) :
    natChars n = if n < 10 then [digitChr n]
      else natChars (n / 10) ++ [digitChr (n % 10)] := by
  by_cases h10 : n < 10
  · simp [natChars, natCharsAux, h10]
  · have hd : n / 10 < n := Nat.div_lt_self (by omega) (by omega)
    conv_lhs => simp only [natChars, natCharsAux]
    rw [if_neg h10, natCharsAux_adequate (n / 10) n hd, if_neg h10]

theorem natChars_ne_nil (n : Nat) : natChars n ≠ [] := by
  rw [natChars_unfold]
  split <;> simp

theorem natChars_all_digits (n : Nat) :
    ∀ c ∈ natChars n, c.isDigit = true := by
  induction n using Nat.strongRecOn with
  | _ n ih =>
    rw [natChars_unfold]
    intro c hc
    by_cases h10 : n < 10
    · rw [if_pos h10] at hc
      simp only [List.mem_singleton] at hc
      exact hc ▸ (digitChr_spec n h10).2
    · rw [if_neg h10] at hc
      rcases List.mem_append.mp hc with hl | hr
      · exact ih (n / 10) (Nat.div_lt_self (by omega) (by omega)) c hl
      · simp only [List.mem_singleton] at hr
        exact hr ▸ (digitChr_spec (n % 10) (Nat.mod_lt _ (by omega))).2

theorem digitsVal_natChars (n : Nat) : digitsVal (natChars n) = n := by
  induction n using Nat.strongRecOn with
  | _ n ih =>
    rw [natChars_unfold]
    by_cases h10 : n < 10
    · simp only [if_pos h10, digitsVal, List.foldl_cons, List.foldl_nil]
      rw [Nat.zero_mul, Nat.zero_add, (digitChr_spec n h10).1]
    · simp only [if_neg h10, digitsVal, List.foldl_append, List.foldl_cons,
        List.foldl_nil]
      have hv := ih (n / 10) (Nat.div_lt_self (by omega) (by omega))
      rw [digitsVal] at hv
      rw [hv, (digitChr_spec (n % 10) (Nat.mod_lt _ (by omega))).1]
      omega

/-- Whether the input starts with a decimal digit. -/
def leadsDigit : List Char → Bool
  | [] => false
  | c :: _ => c.isDigit

theorem takeDigits_stop (s : List Char) (h : leadsDigit s = false) :
    takeDigits s = ([], s) := by
  cases s with
  | nil => rfl
  | cons c rest =>
    rw [leadsDigit] at h
    simp [takeDigits, h]

theorem takeDigits_run :
    ∀ (ds : List Char), (∀ c ∈ ds, c.isDigit = true) →
      ∀ (rest : List Char), leadsDigit rest = false →
        takeDigits (ds ++ rest) = (ds, rest) := by
  intro ds
  induction ds with
  | nil =>
    intro _ rest hr
    simpa using takeDigits_stop rest hr
  | cons c t ih =>
    intro hds rest hr
    have hc : c.isDigit = true := hds c (List.mem_cons_self ..)
    have ht := ih (fun x hx => hds x (List.mem_cons_of_mem _ hx)) rest hr
    simp [takeDigits, hc, ht]

theorem parseNatNum_round (n : Nat) (rest : List Char)
    (hr : leadsDigit rest = false) :
    parseNatNum (natChars n ++ rest) = some (n, rest) := by
  have hrun := takeDigits_run (natChars n) (natChars_all_digits n) rest hr
  obtain ⟨c, t, hct⟩ : ∃ c t, natChars n = c :: t := by
    cases h : natChars n with
    | nil => exact absurd h (natChars_ne_nil n)
    | cons c t => exact ⟨c, t, rfl⟩
  rw [hct] at hrun
  rw [hct, parseNatNum, hrun]
  have : digitsVal (c :: t) = n := by rw [← hct, digitsVal_natChars]
  simp [this]

theorem parseIntNum_round (i : Int) (rest : List Char)
    (hr : leadsDigit rest = false) :
    parseIntNum (intChars i ++ rest) = some (i, rest) := by
  by_cases hi : i < 0
  · have harg : intChars i ++ rest = '-' :: (natChars i.natAbs ++ rest) := by
      simp [intChars, hi]
    rw [harg, parseIntNum, if_pos rfl, parseNatNum_round i.natAbs rest hr]
    simp
    rw [abs_of_neg hi, neg_neg]
  · obtain ⟨c, t, hct⟩ : ∃ c t, natChars i.toNat = c :: t := by
      cases h : natChars i.toNat with
      | nil => exact absurd h (natChars_ne_nil _)
      | cons c t => exact ⟨c, t, rfl⟩
    have hcd : c.isDigit = true :=
      natChars_all_digits i.toNat c (hct ▸ List.mem_cons_self ..)
    have hcm : ¬ c = '-' := by
      intro h
      rw [h] at hcd
      exact absurd hcd (by decide)
    have harg : intChars i ++ rest = c :: (t ++ rest) := by
      simp [intChars, if_neg hi, hct]
    rw [harg, parseIntNum]
    simp only [if_neg hcm]
    have hback : c :: (t ++ rest) = natChars i.toNat ++ rest := by
      rw [hct]; rfl
    rw [hback, parseNatNum_round i.toNat rest hr]
    have hv : ((i.toNat : Nat) : Int) = i := by omega
    simp [hv]

/-! ## Codec round trip: strings -/

theorem hexVal_hexChr (d : Nat) (h : d < 16) : hexVal (hexChr d) = some d := by
  interval_cases d <;> decide

/-- Reduction of the parser on a two-character named escape. -/
theorem parseStrChars_named (e ch : Char) (hu : unescChar e = some ch)
    (he : ¬ e = 'u') (rest : List Char) :
    parseStrChars ('\\' :: e :: rest)
      = (parseStrChars rest).map (fun p => (ch :: p.1, p.2)) := by
  rw [parseStrChars.eq_def]
  simp only [if_neg (by decide : ¬('\\' : Char) = '"'), if_pos rfl,
    if_neg he, hu]
  cases hp : parseStrChars rest with
  | none => simp [hp]
  | some p => simp [hp]

/-- Reduction of the parser on an unescaped character. -/
theorem parseStrChars_plain (c : Char) (h1 : ¬ c = '"') (h2 : ¬ c = '\\')
    (rest : List Char) :
    parseStrChars (c :: rest)
      = (parseStrChars rest).map (fun p => (c :: p.1, p.2)) := by
  rw [parseStrChars.eq_def]
  simp only [if_neg h1, if_neg h2]
  cases hp : parseStrChars rest with
  | none => simp [hp]
  | some p => simp [hp]

/-- Parsing one escaped character prepends exactly that character. -/
theorem parseStrChars_escChar (c : Char) (rest : List Char) :
    parseStrChars (escChar c ++ rest)
      = (parseStrChars rest).map (fun p => (c :: p.1, p.2)) := by
  by_cases h1 : c = '"'
  · subst h1
    exact parseStrChars_named '"' '"' (by decide) (by decide) rest
  · by_cases h2 : c = '\\'
    · subst h2
      exact parseStrChars_named '\\' '\\' (by decide) (by decide) rest
    · by_cases h3 : c = '\x08'
      · subst h3
        exact parseStrChars_named 'b' '\x08' (by decide) (by decide) rest
      · by_cases h4 : c = '\t'
        · subst h4
          exact parseStrChars_named 't' '\t' (by decide) (by decide) rest
        · by_cases h5 : c = '\n'
          · subst h5
            exact parseStrChars_named 'n' '\n' (by decide) (by decide) rest
          · by_cases h6 : c = '\x0c'
            · subst h6
              exact parseStrChars_named 'f' '\x0c' (by decide) (by decide) rest
            · by_cases h7 : c = '\r'
              · subst h7
                exact parseStrChars_named 'r' '\r' (by decide) (by decide) rest
              · by_cases h8 : c.toNat < 32
                · have harg : escChar c ++ rest
                      = '\\' :: 'u' :: '0' :: '0' :: hexChr (c.toNat / 16)
                        :: hexChr (c.toNat % 16) :: rest := by
                    simp [escChar, h1, h2, h3, h4, h5, h6, h7, h8]
                  rw [harg, parseStrChars.eq_def]
                  simp only [if_neg (by decide : ¬('\\' : Char) = '"'),
                    if_pos rfl,
                    hexVal_hexChr (c.toNat / 16) (by omega),
                    hexVal_hexChr (c.toNat % 16) (by omega),
                    (by decide : hexVal '0' = some 0)]
                  have hval : ((0 * 16 + 0) * 16 + c.toNat / 16) * 16
                      + c.toNat % 16 = c.toNat := by omega
                  rw [hval, Char.ofNat_toNat]
                  cases hp : parseStrChars rest with
                  | none => simp [hp]
                  | some p => simp [hp]
                · have harg : escChar c ++ rest = c :: rest := by
                    simp [escChar, h1, h2, h3, h4, h5, h6, h7, h8]
                  rw [harg]
                  exact parseStrChars_plain c h1 h2 rest

/-- Parsing a fully escaped string body up to the closing quote recovers
the original characters. -/
theorem parseStrChars_run :
    ∀ (cs : List Char) (rest : List Char),
      parseStrChars (cs.flatMap escChar ++ '"' :: rest) = some (cs, rest) := by
  intro cs
  induction cs with
  | nil =>
    intro rest
    rw [List.flatMap_nil, List.nil_append, parseStrChars.eq_def]
    simp
  | cons c t ih =>
    intro rest
    rw [List.flatMap_cons, List.append_assoc, parseStrChars_escChar, ih]
    rfl

/-- Parsing the escaped body of a string value recovers its characters. -/
theorem parseStrChars_escString (s : String) (r : List Char) :
    parseStrChars (escString s ++ '"' :: r) = some (s.data, r) :=
  parseStrChars_run s.data r

theorem expects_prefix (p : List Char) (s : List Char) :
    expects p (p ++ s) = some s := by
  induction p with
  | nil => rfl
  | cons c t ih => simp [expects, ih]

/-- Parsing one serialized snapshot line recovers exactly the line. -/
theorem parseItem_round (it : Item) (rest : List Char) :
    parseItem (itemChars it ++ rest) = some (it, rest) := by
  obtain ⟨nm, pr, qt⟩ := it
  have harg : itemChars ⟨nm, pr, qt⟩ ++ rest
      = nameKey ++ (escString nm ++ '"' :: (priceKey
        ++ (intChars pr ++ (qtyKey
        ++ (intChars qt ++ ('\x7d' :: rest)))))) := by
    simp [itemChars, List.append_assoc]
  have hp1 : parseIntNum (intChars pr
        ++ (qtyKey ++ (intChars qt ++ ('\x7d' :: rest))))
      = some (pr, qtyKey ++ (intChars qt ++ ('\x7d' :: rest))) :=
    parseIntNum_round pr _ rfl
  have hp2 : parseIntNum (intChars qt ++ ('\x7d' :: rest))
      = some (qt, '\x7d' :: rest) :=
    parseIntNum_round qt _ rfl
  have hbrace : expects ['\x7d'] ('\x7d' :: rest) = some rest := rfl
  rw [harg]
  simp only [parseItem, expects_prefix, parseStrChars_escString, hp1, hp2,
    hbrace, Option.bind_eq_bind, Option.some_bind]
  rfl

/-- Every line contributes at least one character to the body. -/
theorem itemsBody_len :
    ∀ (l : List Item) (it : Item), l.length ≤ (itemsBody (it :: l)).length := by
  intro l
  induction l with
  | nil => simp
  | cons it2 l2 ih =>
    intro it
    have h2 := ih it2
    simp only [itemsBody, List.length_append, List.length_cons]
    have hpos : 1 ≤ (itemChars it).length := by
      simp [itemChars, nameKey]
    omega

/-- Parsing the serialized body of a nonempty line list recovers it, for
any sufficient fuel. -/
theorem parseItemsAux_round :
    ∀ (l : List Item) (it : Item) (fuel : Nat), l.length < fuel →
      ∀ (rest : List Char),
        parseItemsAux fuel (itemsBody (it :: l) ++ ']' :: rest)
          = some (it :: l, rest) := by
  intro l
  induction l with
  | nil =>
    intro it fuel hf rest
    match fuel, hf with
    | f + 1, _ =>
      have : itemsBody [it] = itemChars it := rfl
      rw [this, parseItemsAux, parseItem_round]
      rfl
  | cons it2 l2 ih =>
    intro it fuel hf rest
    match fuel, hf with
    | f + 1, hff =>
      have harg : itemsBody (it :: it2 :: l2) ++ ']' :: rest
          = itemChars it
            ++ (',' :: (itemsBody (it2 :: l2) ++ ']' :: rest)) := by
        simp [itemsBody, List.append_assoc]
      rw [harg, parseItemsAux, parseItem_round]
      have hih := ih it2 f
        (by simp only [List.length_cons] at hff; omega) rest
      simp [hih]

/-- The snapshot codec round trip: re-parsing the stored snapshot of any
item list yields exactly that list. -/
theorem parseItems_stringify (l : List Item) :
    parseItems (stringifyItems l) = some l := by
  cases l with
  | nil => rfl
  | cons it l2 =>
    have hdata : (stringifyItems (it :: l2)).data
        = '[' :: (itemsBody (it :: l2) ++ [']']) := rfl
    obtain ⟨t, ht⟩ : ∃ t, itemsBody (it :: l2) = '\x7b' :: t := by
      cases l2 with
      | nil => exact ⟨_, rfl⟩
      | cons x y => exact ⟨_, rfl⟩
    have hne : ¬ (itemsBody (it :: l2) ++ [']'] = [']']) := by
      rw [ht]
      intro h
      simp at h
    rw [parseItems.eq_def, hdata]
    simp only [if_neg hne]
    have hlen : l2.length < (itemsBody (it :: l2)).length + 1 + 1 := by
      have := itemsBody_len l2 it
      omega
    have hr := parseItemsAux_round l2 it
      ((itemsBody (it :: l2)).length + 1 + 1) hlen []
    simp [hr]

/-! ## Orders and the ledger

An order row carries the columns of the `orders` table that the modelled
code reads. The `created_at` timestamp is modelled by the one projection
the code takes of it: the zero-based calendar month index that
`new Date(order.created_at).toLocaleString` with the short month option
renders in the default locale. -/

/-- Creation timestamp of an order, reduced to its calendar month. -/
structure Timestamp where
  month : Nat
deriving DecidableEq, Repr

/-- English short month names, as rendered by the default locale. -/
def monthNames : List String :=
  ["Jan", "Feb", "Mar", "Apr", "May", "Jun",
   "Jul", "Aug", "Sep", "Oct", "Nov", "Dec"]

/-- The short month string of a timestamp. -/
def monthShort (t : Timestamp) : String := monthNames.getD t.month ""

/-- One row of the orders table, as read back by the client and the admin
endpoints. -/
structure Order where
  id : Nat
  user_id : Option Nat
  items : String
  total : Int
  status : String
  address : String
  contact : String
  created_at : Timestamp
deriving DecidableEq, Repr

/-! ## Insertion-ordered tallies

JavaScript accumulates `monthlySales`, `productCount` and `salesMap` in
plain objects. With the string keys these tallies use, object iteration
order is insertion order, so the objects are modelled as association
lists: an update of an existing key keeps its position, a new key is
appended at the end. -/

/-- First value stored under a key, `0` when the key is absent, the
meaning of `m[k] || 0`. -/
def lookupD : List (String × Int) → String → Int
  | [], _ => 0
  | (k, v) :: rest, key => if k = key then v else lookupD rest key

/-- Whether the tally has an entry for the key, the meaning of
`m[k] !== undefined`. -/
def hasKey (m : List (String × Int)) (key : String) : Bool :=
  m.any (fun e => e.1 = key)

/-- Adds `v` to the entry of `key`, appending the entry at the end when
the key is new: the `m[k] = (m[k] || 0) + v` update. -/
def bumpAList (m : List (String × Int)) (key : String) (v : Int) :
    List (String × Int) :=
  if hasKey m key then
    m.map (fun e => if e.1 = key then (e.1, e.2 + v) else e)
  else m ++ [(key, v)]

/-! ## The client dashboard aggregation

Model of `dashboardStats` (App.tsx lines 123-187): `filterOrders` is the
`filteredOrders` memo, `stepOrder` is the body of the
`filteredOrders.forEach` loop, and `dashboardStats` assembles the
returned record. The `try/catch` around `JSON.parse` of the items column
is the `match` on `parseItems`. -/

/-- The month filter applied before aggregation. -/
def filterOrders (orders : List Order) (selectedMonth : String) :
    List Order :=
  if selectedMonth = "All" then orders
  else orders.filter (fun o => monthShort o.created_at == selectedMonth)

/-- Model of the JavaScript `toLowerCase` on status strings: lower-case
every character (ASCII case mapping). -/
def toLowerStr (s : String) : String := ⟨s.data.map Char.toLower⟩

/-- Mutable state of the aggregation loop. -/
structure AggState where
  totalRevenue : Int
  delivered : Nat
  pending : Nat
  monthlySales : List (String × Int)
  productCount : List (String × Int)
deriving DecidableEq, Repr

/-- Loop state before the first iteration: zero totals, the month tally
seeded with Jan, Feb, Mar at zero, the product tally empty. -/
def initAgg : AggState :=
  ⟨0, 0, 0, [("Jan", 0), ("Feb", 0), ("Mar", 0)], []⟩

/-- One iteration of the aggregation loop over one order. -/
def stepOrder (s : AggState) (o : Order) : AggState :=
  let rev := s.totalRevenue + o.total
  let d := if toLowerStr o.status == "delivered" then s.delivered + 1
    else s.delivered
  let p := if toLowerStr o.status == "delivered" then s.pending
    else s.pending + 1
  let ms := bumpAList s.monthlySales (monthShort o.created_at) o.total
  let pc :=
    match parseItems o.items with
    | some items =>
      items.foldl (fun m it => bumpAList m it.name it.quantity) s.productCount
    | none => s.productCount
  ⟨rev, d, p, ms, pc⟩

/-- The aggregation loop over a list of orders. -/
def aggregate (orders : List Order) : AggState :=
  orders.foldl stepOrder initAgg

/-- The `bestSeller` expression: fold of the strict-compare ternary over
the tally keys in iteration order, with the sentinel on an empty tally. -/
def bestSellerOf (pc : List (String × Int)) : String :=
  match pc.map Prod.fst with
  | [] => "Loading..."
  | k :: ks => ks.foldl (fun a b => if lookupD pc a > lookupD pc b then a else b) k

/-- The record returned by the dashboard memo. -/
structure DashboardStats where
  totalOrders : Nat
  totalRevenue : Int
  delivered : Nat
  pending : Nat
  bestSeller : String
  salesChartData : List (String × Int)
  statusChartData : List (String × Nat)
deriving DecidableEq, Repr

/-- The dashboard computation over the fetched orders and the selected
month filter. -/
def dashboardStats (orders : List Order) (selectedMonth : String) :
    DashboardStats :=
  let filtered := filterOrders orders selectedMonth
  let st := aggregate filtered
  { totalOrders := filtered.length
    totalRevenue := st.totalRevenue
    delivered := st.delivered
    pending := st.pending
    bestSeller := bestSellerOf st.productCount
    salesChartData :=
      ["Jan", "Feb", "Mar"].map (fun m => (m, lookupD st.monthlySales m))
    statusChartData := [("Delivered", st.delivered), ("Pending", st.pending)] }

/-! ## Order placement

Model of `POST /api/orders` (App.tsx lines 1804-1809): destructure the
payload, insert one row with the stringified items and the schema
default status `pending`, respond with the fresh row id. The handler
contains no validation step whatsoever. -/

/-- The request payload of the place-order endpoint. -/
structure OrderReq where
  items : List Item
  total : Int
  address : String
  contact : String
  user_id : Option Nat
deriving DecidableEq, Repr

/-- Modelled from the spec: the payload validation of section 4.1 (item
list non-empty, every quantity a positive integer, address and contact
non-empty). The handler in the source performs no such check; this
predicate only scopes quantifiers in the statements below. -/
def validOrderPayload (r : OrderReq) : Bool :=
  !r.items.isEmpty
    && r.items.all (fun it => 1 ≤ it.quantity)
    && !(r.address = "")
    && !(r.contact = "")

/-- The row inserted for a payload, with the fresh id and insert-time
timestamp assigned by the database. -/
def mkOrderRow (r : OrderReq) (newId : Nat) (now : Timestamp) : Order :=
  { id := newId
    user_id := r.user_id
    items := stringifyItems r.items
    total := r.total
    status := "pending"
    address := r.address
    contact := r.contact
    created_at := now }

/-- The place-order endpoint: appends one row to the ledger and returns
the new ledger plus the id carried by the success response. -/
def placeOrder (ledger : List Order) (r : OrderReq) (newId : Nat)
    (now : Timestamp) : List Order × Nat :=
  (ledger ++ [mkOrderRow r newId now], newId)

/-! ## Access control

Model of the middleware chain `authenticateToken` then `isAdmin`
(App.tsx lines 1737-1752), which guards every privileged route:
`GET /api/admin/orders`, `GET /api/admin/stats`, and the catalog,
gallery and settings mutations. The `jsonwebtoken` library is modelled
by a decoding environment from token strings to signed tokens; a token
verifies exactly when it is signed with the server secret and its expiry
lies in the future. -/

/-- The payload embedded in an issued token. -/
structure JwtClaims where
  id : Nat
  role : String
  name : String
deriving DecidableEq, Repr

/-- A decoded token: its claims, the secret it was signed with, and its
expiry instant. -/
structure JwtToken where
  claims : JwtClaims
  secret : String
  exp : Nat
deriving DecidableEq, Repr

/-- Model of `jwt.verify`: succeeds exactly on a decodable token signed
with the expected secret and not yet expired. -/
def jwtVerify (decode : String → Option JwtToken) (secret : String)
    (now : Nat) (s : String) : Option JwtClaims :=
  match decode s with
  | none => none
  | some t => if t.secret = secret ∧ now < t.exp then some t.claims else none

/-- Model of the JavaScript `split` on a single space: splits at every
space, keeping empty groups. -/
def splitSp : List Char → List (List Char)
  | [] => [[]]
  | c :: rest =>
    if c = ' ' then [] :: splitSp rest
    else
      match splitSp rest with
      | g :: gs => (c :: g) :: gs
      | [] => [[c]]

/-- Extraction of the bearer token: `authHeader && authHeader.split(' ')[1]`,
mapping every falsy result (missing header, missing second field, empty
second field) to `none`. -/
def extractToken (authHeader : Option String) : Option String :=
  match authHeader with
  | none => none
  | some h =>
    match (splitSp h.data)[1]? with
    | none => none
    | some t => if t = [] then none else some ⟨t⟩

/-- Outcome of the middleware chain: an HTTP status sent by
`res.sendStatus`, or the request reaching the guarded handler. -/
inductive GateResult where
  | status (code : Nat)
  | granted (u : JwtClaims)
deriving DecidableEq, Repr

/-- The `authenticateToken` middleware: 401 without a token, 403 when
verification fails, otherwise the verified claims are attached. -/
def authenticateToken (verify : String → Option JwtClaims)
    (authHeader : Option String) : GateResult :=
  match extractToken authHeader with
  | none => .status 401
  | some t =>
    match verify t with
    | none => .status 403
    | some u => .granted u

/-- The `isAdmin` middleware, applied after `authenticateToken`. -/
def isAdminGate (r : GateResult) : GateResult :=
  match r with
  | .granted u => if u.role ≠ "admin" then .status 403 else .granted u
  | s => s

/-- The full guard in front of every privileged route. -/
def adminGate (verify : String → Option JwtClaims)
    (authHeader : Option String) : GateResult :=
  isAdminGate (authenticateToken verify authHeader)

/-! ## The admin stats endpoint

Model of `GET /api/admin/stats` (App.tsx lines 1816-1836). Its product
loop adds `1` per item line, not the line quantity, and runs
`JSON.parse` with no guard: a single unparseable items column makes the
handler throw, modelled by `none`. -/

/-- The JSON body of a successful stats response. -/
structure AdminStats where
  revenue : Int
  orders : Nat
  chartData : List (String × Int)
deriving DecidableEq, Repr

/-- The product loop of the stats endpoint: one bump of size `1` per
item line, failing outright on the first unparseable snapshot. -/
def adminSalesAux : List Order → List (String × Int) →
    Option (List (String × Int))
  | [], acc => some acc
  | o :: rest, acc =>
    match parseItems o.items with
    | none => none
    | some items =>
      adminSalesAux rest (items.foldl (fun m it => bumpAList m it.name 1) acc)

/-- The stats endpoint: total revenue, order count and the per-product
chart, or `none` when the handler throws. -/
def computeAdminStats (orders : List Order) : Option AdminStats :=
  match adminSalesAux orders [] with
  | none => none
  | some m => some ⟨(orders.map Order.total).sum, orders.length, m⟩

/-! ## Closed forms of the aggregation loop -/

theorem foldl_stepOrder_revenue :
    ∀ (l : List Order) (s : AggState),
      (List.foldl stepOrder s l).totalRevenue
        = s.totalRevenue + (l.map Order.total).sum := by
  intro l
  induction l with
  | nil => intro s; simp
  | cons o t ih =>
    intro s
    rw [List.foldl_cons, ih]
    simp [stepOrder]
    ring

theorem foldl_stepOrder_delivered :
    ∀ (l : List Order) (s : AggState),
      (List.foldl stepOrder s l).delivered
        = s.delivered + l.countP (fun o => toLowerStr o.status == "delivered") := by
  intro l
  induction l with
  | nil => intro s; simp
  | cons o t ih =>
    intro s
    rw [List.foldl_cons, ih, List.countP_cons]
    by_cases h : toLowerStr o.status == "delivered"
    · simp [stepOrder, h]
      omega
    · simp [stepOrder, h]

theorem foldl_stepOrder_pending :
    ∀ (l : List Order) (s : AggState),
      (List.foldl stepOrder s l).pending
        = s.pending + l.countP (fun o => !(toLowerStr o.status == "delivered")) := by
  intro l
  induction l with
  | nil => intro s; simp
  | cons o t ih =>
    intro s
    rw [List.foldl_cons, ih, List.countP_cons]
    by_cases h : toLowerStr o.status == "delivered"
    · simp [stepOrder, h]
    · simp [stepOrder, h]
      omega

/-! ## Lookup facts for the insertion-ordered tallies -/

theorem lookupD_append (m m2 : List (String × Int)) (key : String) :
    lookupD (m ++ m2) key
      = if hasKey m key then lookupD m key else lookupD m2 key := by
  induction m with
  | nil => simp [hasKey, lookupD]
  | cons e t ih =>
    obtain ⟨k, v⟩ := e
    by_cases h : k = key
    · have hhas : hasKey ((k, v) :: t) key = true := by simp [hasKey, h]
      rw [List.cons_append]
      simp only [lookupD, if_pos h, hhas, if_true]
    · have hhas : hasKey ((k, v) :: t) key = hasKey t key := by
        simp [hasKey, h]
      rw [List.cons_append]
      simp only [lookupD, if_neg h]
      rw [ih, hhas]

theorem lookupD_no_key (m : List (String × Int)) (key : String)
    (h : hasKey m key = false) : lookupD m key = 0 := by
  induction m with
  | nil => rfl
  | cons e t ih =>
    obtain ⟨k, v⟩ := e
    simp only [hasKey, List.any_cons, Bool.or_eq_false_iff] at h
    have hk : ¬ k = key := by
      intro he
      rw [he] at h
      simpa using h.1
    simp only [lookupD, if_neg hk]
    exact ih (by simpa [hasKey] using h.2)

/-- Lookup through the in-place update branch of a bump. -/
theorem lookupD_map_bump :
    ∀ (m : List (String × Int)) (k : String) (v : Int) (key : String),
      lookupD (m.map (fun e => if e.1 = k then (e.1, e.2 + v) else e)) key
        = lookupD m key
          + (if key = k ∧ hasKey m key = true then v else 0) := by
  intro m k v
  induction m with
  | nil =>
    intro key
    simp [lookupD, hasKey]
  | cons e t ih =>
    intro key
    obtain ⟨k1, v1⟩ := e
    simp only [List.map_cons]
    by_cases h2 : k1 = k
    · rw [if_pos h2]
      by_cases h1 : k1 = key
      · simp only [lookupD, if_pos h1]
        have hkk : key = k := by rw [← h1, h2]
        have hhas : hasKey ((k1, v1) :: t) key = true := by
          simp [hasKey, h1]
        rw [if_pos ⟨hkk, hhas⟩]
      · simp only [lookupD, if_neg h1, ih]
        have hh : hasKey ((k1, v1) :: t) key = hasKey t key := by
          simp [hasKey, h1]
        rw [hh]
    · rw [if_neg h2]
      by_cases h1 : k1 = key
      · simp only [lookupD, if_pos h1]
        have hne : ¬ (key = k ∧ hasKey ((k1, v1) :: t) key = true) := by
          rintro ⟨he, -⟩
          exact h2 (by rw [h1, he])
        rw [if_neg hne]
        omega
      · simp only [lookupD, if_neg h1, ih]
        have hh : hasKey ((k1, v1) :: t) key = hasKey t key := by
          simp [hasKey, h1]
        rw [hh]

/-- The single update law of the tallies: a bump adds `v` at its key and
changes nothing elsewhere. -/
theorem lookupD_bump (m : List (String × Int)) (k : String) (v : Int)
    (key : String) :
    lookupD (bumpAList m k v) key
      = lookupD m key + (if key = k then v else 0) := by
  by_cases hmem : hasKey m k = true
  · rw [bumpAList, if_pos hmem, lookupD_map_bump]
    by_cases he : key = k
    · rw [if_pos ⟨he, by rw [he]; exact hmem⟩, if_pos he]
    · rw [if_neg (fun h => he h.1), if_neg he]
  · rw [bumpAList, if_neg hmem, lookupD_append]
    by_cases hkey : hasKey m key = true
    · have hne : ¬ key = k := fun he => hmem (he ▸ hkey)
      rw [if_pos hkey, if_neg hne]
      omega
    · rw [if_neg hkey, lookupD_no_key m key (by simpa using hkey)]
      simp only [lookupD]
      by_cases he : key = k
      · rw [if_pos (by rw [he]), if_pos he]
        omega
      · rw [if_neg (fun h => he h.symm), if_neg he]
        simp [lookupD]

theorem foldl_stepOrder_month :
    ∀ (l : List Order) (s : AggState) (key : String),
      lookupD (List.foldl stepOrder s l).monthlySales key
        = lookupD s.monthlySales key
          + ((l.filter (fun o => monthShort o.created_at == key)).map
              Order.total).sum := by
  intro l
  induction l with
  | nil => intro s key; simp
  | cons o t ih =>
    intro s key
    rw [List.foldl_cons, ih]
    have hms : (stepOrder s o).monthlySales
        = bumpAList s.monthlySales (monthShort o.created_at) o.total := rfl
    rw [hms, lookupD_bump, List.filter_cons]
    by_cases h : monthShort o.created_at = key
    · simp [h]
      ring
    · have hb : (monthShort o.created_at == key) = false := by
        simpa using h
      have hk : ¬ key = monthShort o.created_at := fun he => h he.symm
      simp [hb, hk]

/-! ## Closed forms of the product tallies -/

/-- The product-tally part of one dashboard loop iteration. -/
def pcStep (pc : List (String × Int)) (o : Order) : List (String × Int) :=
  match parseItems o.items with
  | some items =>
    items.foldl (fun m it => bumpAList m it.name it.quantity) pc
  | none => pc

/-- The product tally evolves independently of the other loop state. -/
theorem foldl_stepOrder_productCount :
    ∀ (l : List Order) (s : AggState),
      (List.foldl stepOrder s l).productCount
        = l.foldl pcStep s.productCount := by
  intro l
  induction l with
  | nil => intro s; rfl
  | cons o t ih =>
    intro s
    rw [List.foldl_cons, List.foldl_cons, ih]
    have hpc : (stepOrder s o).productCount = pcStep s.productCount o := rfl
    rw [hpc]

/-- Orders with an unparseable snapshot contribute nothing to the product
tally: folding over a list equals folding over its parseable sublist. -/
theorem foldl_pcStep_filter :
    ∀ (l : List Order) (pc : List (String × Int)),
      l.foldl pcStep pc
        = (l.filter (fun o => (parseItems o.items).isSome)).foldl pcStep pc := by
  intro l
  induction l with
  | nil => intro pc; rfl
  | cons o t ih =>
    intro pc
    rw [List.foldl_cons, List.filter_cons]
    cases hp : parseItems o.items with
    | none =>
      have hskip : pcStep pc o = pc := by rw [pcStep, hp]
      simp [hp, hskip, ih]
    | some items =>
      simp [hp, ih]

/-- All item lines of an order list, in processing order, empty for an
order whose snapshot does not parse. -/
def allLines (orders : List Order) : List Item :=
  orders.flatMap (fun o => (parseItems o.items).getD [])

/-- Lookup after folding a weighted bump over item lines: the prior value
plus the weights of the lines carrying the key. -/
theorem lookupD_foldl_items (f : Item → Int) :
    ∀ (items : List Item) (pc : List (String × Int)) (key : String),
      lookupD (items.foldl (fun m it => bumpAList m it.name (f it)) pc) key
        = lookupD pc key
          + ((items.filter (fun it => it.name == key)).map f).sum := by
  intro items
  induction items with
  | nil => intro pc key; simp
  | cons it t ih =>
    intro pc key
    rw [List.foldl_cons, ih, lookupD_bump]
    by_cases h : it.name = key
    · have hb : (it.name == key) = true := by simpa using h
      have hk : key = it.name := h.symm
      rw [if_pos hk, List.filter_cons, hb, if_pos rfl,
        List.map_cons, List.sum_cons]
      ring
    · have hb : (it.name == key) = false := by simpa using h
      have hk : ¬ key = it.name := fun he => h he.symm
      rw [if_neg hk, List.filter_cons, hb,
        if_neg (by decide : ¬ false = true)]
      ring

/-- Lookup in the dashboard product tally: the summed quantities of the
lines carrying the key. -/
theorem lookupD_foldl_pcStep :
    ∀ (l : List Order) (pc : List (String × Int)) (key : String),
      lookupD (l.foldl pcStep pc) key
        = lookupD pc key
          + (((allLines l).filter (fun it => it.name == key)).map
              Item.quantity).sum := by
  intro l
  induction l with
  | nil => intro pc key; simp [allLines]
  | cons o t ih =>
    intro pc key
    rw [List.foldl_cons, ih]
    have hlines : allLines (o :: t)
        = (parseItems o.items).getD [] ++ allLines t := by
      simp [allLines]
    rw [hlines, List.filter_append, List.map_append, List.sum_append]
    have hstep : lookupD (pcStep pc o) key
        = lookupD pc key
          + ((((parseItems o.items).getD []).filter
              (fun it => it.name == key)).map Item.quantity).sum := by
      rw [pcStep]
      cases hp : parseItems o.items with
      | none => simp
      | some items => simp [lookupD_foldl_items Item.quantity items pc key]
    rw [hstep]
    ring

/-! ## Facts about the admin stats product loop -/

/-- Summing a constant `1` over a list counts its elements. -/
theorem sum_ones {α : Type} :
    ∀ (l : List α), (l.map (fun _ => (1 : Int))).sum = (l.length : Int) := by
  intro l
  induction l with
  | nil => rfl
  | cons x t ih =>
    rw [List.map_cons, List.sum_cons, ih, List.length_cons]
    push_cast
    ring

/-- One unparseable snapshot anywhere makes the stats loop throw. -/
theorem adminSalesAux_none :
    ∀ (orders : List Order) (acc : List (String × Int)),
      (∃ o ∈ orders, parseItems o.items = none) →
        adminSalesAux orders acc = none := by
  intro orders
  induction orders with
  | nil =>
    intro acc h
    obtain ⟨o, ho, -⟩ := h
    exact absurd ho (List.not_mem_nil o)
  | cons o t ih =>
    intro acc h
    rw [adminSalesAux]
    cases hp : parseItems o.items with
    | none => rfl
    | some items =>
      obtain ⟨o2, ho2, hbad⟩ := h
      rcases List.mem_cons.mp ho2 with he | ht
      · rw [he] at hbad
        rw [hbad] at hp
        cases hp
      · exact ih _ ⟨o2, ht, hbad⟩

/-- A successful stats loop implies every snapshot parsed. -/
theorem adminSalesAux_some_parses :
    ∀ (orders : List Order) (acc m : List (String × Int)),
      adminSalesAux orders acc = some m →
        ∀ o ∈ orders, (parseItems o.items).isSome := by
  intro orders
  induction orders with
  | nil =>
    intro acc m _ o ho
    exact absurd ho (List.not_mem_nil o)
  | cons o t ih =>
    intro acc m h o2 ho2
    rw [adminSalesAux] at h
    cases hp : parseItems o.items with
    | none => rw [hp] at h; cases h
    | some items =>
      rw [hp] at h
      rcases List.mem_cons.mp ho2 with he | ht
      · rw [he, hp]; rfl
      · exact ih _ m h o2 ht

/-- Lookup in a successful stats chart: the prior value plus the number
of item lines carrying the key. -/
theorem adminSalesAux_lookup :
    ∀ (orders : List Order) (acc m : List (String × Int)),
      adminSalesAux orders acc = some m →
        ∀ key, lookupD m key
          = lookupD acc key
            + ((allLines orders).filter (fun it => it.name == key)).length := by
  intro orders
  induction orders with
  | nil =>
    intro acc m h key
    rw [adminSalesAux] at h
    cases h
    simp [allLines]
  | cons o t ih =>
    intro acc m h key
    rw [adminSalesAux] at h
    cases hp : parseItems o.items with
    | none => rw [hp] at h; cases h
    | some items =>
      rw [hp] at h
      have hstep := ih _ m h key
      rw [hstep, lookupD_foldl_items (fun _ => 1) items acc key]
      have hlines : allLines (o :: t) = items ++ allLines t := by
        simp [allLines, hp]
      rw [hlines, List.filter_append, List.length_append]
      have hcount : (((items.filter (fun it => it.name == key)).map
          (fun _ => (1 : Int))).sum)
          = ((items.filter (fun it => it.name == key)).length : Int) :=
        sum_ones _
      rw [hcount]
      push_cast
      ring

/-! ## The argmax fold behind bestSeller -/

/-- The keys of a tally are pairwise distinct, an invariant of every
tally the code builds. -/
def keysNodup (m : List (String × Int)) : Prop := (m.map Prod.fst).Nodup

theorem keysNodup_bump (m : List (String × Int)) (k : String) (v : Int)
    (h : keysNodup m) : keysNodup (bumpAList m k v) := by
  rw [bumpAList]
  by_cases hmem : hasKey m k = true
  · rw [if_pos hmem]
    have hkeys : (m.map (fun e => if e.1 = k then (e.1, e.2 + v) else e)).map
        Prod.fst = m.map Prod.fst := by
      rw [List.map_map]
      apply List.map_congr_left
      intro e _
      by_cases he : e.1 = k
      · simp [he]
      · simp [he]
    rw [keysNodup, hkeys]
    exact h
  · rw [if_neg hmem, keysNodup, List.map_append]
    have hk : k ∉ m.map Prod.fst := by
      intro hmm
      obtain ⟨e, he, hfst⟩ := List.mem_map.mp hmm
      apply hmem
      rw [hasKey, List.any_eq_true]
      exact ⟨e, he, by simp [hfst]⟩
    rw [List.nodup_append]
    refine ⟨h, by simp, ?_⟩
    intro a ha hb
    simp only [List.map_cons, List.map_nil, List.mem_singleton] at hb
    rw [hb] at ha
    exact hk ha

theorem keysNodup_foldl_bump (f : Item → Int) :
    ∀ (items : List Item) (pc : List (String × Int)), keysNodup pc →
      keysNodup (items.foldl (fun m it => bumpAList m it.name (f it)) pc) := by
  intro items
  induction items with
  | nil => intro pc h; exact h
  | cons it t ih =>
    intro pc h
    rw [List.foldl_cons]
    exact ih _ (keysNodup_bump pc it.name (f it) h)

theorem keysNodup_pcStep (pc : List (String × Int)) (o : Order)
    (h : keysNodup pc) : keysNodup (pcStep pc o) := by
  rw [pcStep]
  cases parseItems o.items with
  | none => exact h
  | some items => exact keysNodup_foldl_bump Item.quantity items pc h

theorem keysNodup_foldl_pcStep :
    ∀ (l : List Order) (pc : List (String × Int)), keysNodup pc →
      keysNodup (l.foldl pcStep pc) := by
  intro l
  induction l with
  | nil => intro pc h; exact h
  | cons o t ih =>
    intro pc h
    exact ih _ (keysNodup_pcStep pc o h)

/-- With distinct keys, every entry stores exactly the looked-up value. -/
theorem lookupD_eq_of_mem :
    ∀ (m : List (String × Int)), keysNodup m →
      ∀ e ∈ m, lookupD m e.1 = e.2 := by
  intro m
  induction m with
  | nil =>
    intro _ e he
    exact absurd he (List.not_mem_nil e)
  | cons hd t ih =>
    intro hn e he
    obtain ⟨k1, v1⟩ := hd
    rw [keysNodup, List.map_cons, List.nodup_cons] at hn
    rcases List.mem_cons.mp he with he1 | he2
    · rw [he1]
      simp [lookupD]
    · have hne : ¬ k1 = e.1 := by
        intro hx
        apply hn.1
        rw [hx]
        exact List.mem_map.mpr ⟨e, he2, rfl⟩
      simp only [lookupD, if_neg hne]
      exact ih hn.2 e he2

/-- A split of the key list lifts to a split of the tally. -/
theorem map_fst_split :
    ∀ (l1 : List String) (m : List (String × Int)) (r : String)
      (l2 : List String), m.map Prod.fst = l1 ++ r :: l2 →
      ∃ pre v post, m = pre ++ (r, v) :: post
        ∧ pre.map Prod.fst = l1 ∧ post.map Prod.fst = l2 := by
  intro l1
  induction l1 with
  | nil =>
    intro m r l2 h
    cases m with
    | nil => simp at h
    | cons e t =>
      obtain ⟨k1, v1⟩ := e
      rw [List.map_cons, List.nil_append] at h
      injection h with h1 h2
      exact ⟨[], v1, t, by simp [← h1], rfl, h2⟩
  | cons a t1 ih =>
    intro m r l2 h
    cases m with
    | nil => simp at h
    | cons e t =>
      obtain ⟨k1, v1⟩ := e
      rw [List.map_cons, List.cons_append] at h
      injection h with h1 h2
      obtain ⟨pre, v, post, hpc, hpre, hpost⟩ := ih t r l2 h2
      exact ⟨(k1, v1) :: pre, v, post, by rw [hpc, List.cons_append],
        by rw [List.map_cons, hpre, h1], hpost⟩

/-- The strict-compare fold keeps the last occurrence of the maximum:
the start list splits around the result, everything before it weakly
below, everything after it strictly below. -/
theorem foldl_best (c : String → Int) :
    ∀ (ks : List String) (k : String),
      ∃ l1 l2,
        k :: ks = l1 ++ (ks.foldl (fun a b => if c a > c b then a else b) k) :: l2
        ∧ (∀ x ∈ l1, c x ≤ c (ks.foldl (fun a b => if c a > c b then a else b) k))
        ∧ (∀ x ∈ l2, c x < c (ks.foldl (fun a b => if c a > c b then a else b) k)) := by
  intro ks
  induction ks with
  | nil =>
    intro k
    exact ⟨[], [], rfl, by simp, by simp⟩
  | cons b rest ih =>
    intro k
    rw [List.foldl_cons]
    by_cases hcb : c k > c b
    · rw [if_pos hcb]
      obtain ⟨l1, l2, heq, h1, h2⟩ := ih k
      cases l1 with
      | nil =>
        rw [List.nil_append] at heq
        injection heq with hk hl2
        refine ⟨[], b :: rest, ?_, by simp, ?_⟩
        · rw [List.nil_append, ← hk]
        · intro x hx
          rcases List.mem_cons.mp hx with hxb | hxr
          · rw [hxb, ← hk]
            exact hcb
          · rw [hl2] at hxr
            exact h2 x hxr
      | cons a t1 =>
        rw [List.cons_append] at heq
        injection heq with hk hrest
        refine ⟨k :: b :: t1, l2, ?_, ?_, h2⟩
        · rw [List.cons_append, List.cons_append, ← hrest]
        · intro x hx
          rcases List.mem_cons.mp hx with hxk | hx2
          · rw [hxk]
            conv_lhs => rw [hk]
            exact h1 a (List.mem_cons_self ..)
          · rcases List.mem_cons.mp hx2 with hxb | hxt
            · have hka : c k ≤ c (List.foldl (fun a b => if c a > c b then a else b) k rest) := by
                conv_lhs => rw [hk]
                exact h1 a (List.mem_cons_self ..)
              rw [hxb]
              omega
            · exact h1 x (List.mem_cons_of_mem a hxt)
    · rw [if_neg hcb]
      obtain ⟨l1, l2, heq, h1, h2⟩ := ih b
      cases l1 with
      | nil =>
        rw [List.nil_append] at heq
        injection heq with hb hl2
        refine ⟨[k], rest, ?_, ?_, ?_⟩
        · rw [← hb]
          rfl
        · intro x hx
          rcases List.mem_cons.mp hx with hxk | hxn
          · rw [hxk, ← hb]
            omega
          · exact absurd hxn (List.not_mem_nil x)
        · intro x hxr
          rw [hl2] at hxr
          exact h2 x hxr
      | cons a t1 =>
        rw [List.cons_append] at heq
        injection heq with hb hrest
        refine ⟨k :: b :: t1, l2, ?_, ?_, h2⟩
        · rw [List.cons_append, List.cons_append, ← hrest]
        · intro x hx
          have hba : c b ≤ c (List.foldl (fun a b => if c a > c b then a else b) b rest) := by
            conv_lhs => rw [hb]
            exact h1 a (List.mem_cons_self ..)
          rcases List.mem_cons.mp hx with hxk | hx2
          · rw [hxk]
            omega
          · rcases List.mem_cons.mp hx2 with hxb | hxt
            · rw [hxb]
              exact hba
            · exact h1 x (List.mem_cons_of_mem a hxt)

/-- The bestSeller expression of a nonempty tally with distinct keys
names the last entry holding the maximal count: earlier entries are at
most it, later entries strictly below it. -/
theorem bestSellerOf_spec (pc : List (String × Int)) (hn : keysNodup pc)
    (hne : ¬ pc = []) :
    ∃ v pre post, pc = pre ++ (bestSellerOf pc, v) :: post
      ∧ (∀ e ∈ pre, e.2 ≤ v) ∧ (∀ e ∈ post, e.2 < v) := by
  cases hm : pc.map Prod.fst with
  | nil =>
    cases pc with
    | nil => exact absurd rfl hne
    | cons e t => simp at hm
  | cons k ks =>
    have hbs : bestSellerOf pc
        = ks.foldl (fun a b => if lookupD pc a > lookupD pc b then a else b) k := by
      rw [bestSellerOf, hm]
    obtain ⟨l1, l2, heq, h1, h2⟩ := foldl_best (lookupD pc) ks k
    rw [← hbs] at heq h1 h2
    obtain ⟨pre, v, post, hpc, hpre, hpost⟩ :=
      map_fst_split l1 pc (bestSellerOf pc) l2 (by rw [hm, heq])
    have hvb : lookupD pc (bestSellerOf pc) = v := by
      have hmem : (bestSellerOf pc, v) ∈ pre ++ (bestSellerOf pc, v) :: post :=
        List.mem_append_right _ (List.mem_cons_self ..)
      rw [← hpc] at hmem
      exact lookupD_eq_of_mem pc hn (bestSellerOf pc, v) hmem
    refine ⟨v, pre, post, hpc, ?_, ?_⟩
    · intro e he
      have hev : lookupD pc e.1 = e.2 :=
        lookupD_eq_of_mem pc hn e (by rw [hpc]; exact List.mem_append_left _ he)
      have hex : e.1 ∈ l1 := by
        rw [← hpre]
        exact List.mem_map_of_mem Prod.fst he
      have := h1 e.1 hex
      omega
    · intro e he
      have hev : lookupD pc e.1 = e.2 :=
        lookupD_eq_of_mem pc hn e
          (by
            rw [hpc]
            exact List.mem_append_right _ (List.mem_cons_of_mem _ he))
      have hex : e.1 ∈ l2 := by
        rw [← hpost]
        exact List.mem_map_of_mem Prod.fst he
      have := h2 e.1 hex
      omega

/-! ## Counting versus summing quantities -/

theorem length_le_sum :
    ∀ (l : List Int), (∀ x ∈ l, 1 ≤ x) → (l.length : Int) ≤ l.sum := by
  intro l
  induction l with
  | nil => intro _; simp
  | cons a t ih =>
    intro h
    have ha := h a (List.mem_cons_self ..)
    have ht := ih (fun y hy => h y (List.mem_cons_of_mem a hy))
    rw [List.sum_cons, List.length_cons]
    push_cast
    omega

theorem length_lt_sum (l : List Int) (h1 : ∀ x ∈ l, 1 ≤ x)
    (h2 : ∃ x ∈ l, 1 < x) : (l.length : Int) < l.sum := by
  induction l with
  | nil =>
    obtain ⟨x, hx, -⟩ := h2
    exact absurd hx (List.not_mem_nil x)
  | cons a t ih =>
    obtain ⟨x, hx, hx1⟩ := h2
    rw [List.sum_cons, List.length_cons]
    rcases List.mem_cons.mp hx with he | ht
    · have hsum := length_le_sum t (fun y hy => h1 y (List.mem_cons_of_mem a hy))
      push_cast
      rw [he] at hx1
      omega
    · have := ih (fun y hy => h1 y (List.mem_cons_of_mem a hy)) ⟨x, ht, hx1⟩
      have ha := h1 a (List.mem_cons_self ..)
      push_cast
      omega

/-! ## Closed forms of the dashboard record -/

theorem dashboard_totalOrders_closed (orders : List Order) (m : String) :
    (dashboardStats orders m).totalOrders = (filterOrders orders m).length :=
  rfl

theorem dashboard_revenue_closed (orders : List Order) (m : String) :
    (dashboardStats orders m).totalRevenue
      = ((filterOrders orders m).map Order.total).sum := by
  show (List.foldl stepOrder initAgg (filterOrders orders m)).totalRevenue = _
  rw [foldl_stepOrder_revenue]
  simp [initAgg]

theorem dashboard_delivered_closed (orders : List Order) (m : String) :
    (dashboardStats orders m).delivered
      = (filterOrders orders m).countP
          (fun o => toLowerStr o.status == "delivered") := by
  show (List.foldl stepOrder initAgg (filterOrders orders m)).delivered = _
  rw [foldl_stepOrder_delivered]
  simp [initAgg]

theorem dashboard_pending_closed (orders : List Order) (m : String) :
    (dashboardStats orders m).pending
      = (filterOrders orders m).countP
          (fun o => !(toLowerStr o.status == "delivered")) := by
  show (List.foldl stepOrder initAgg (filterOrders orders m)).pending = _
  rw [foldl_stepOrder_pending]
  simp [initAgg]

theorem dashboard_salesChart_closed (orders : List Order) (m : String) :
    (dashboardStats orders m).salesChartData
      = [("Jan", (((filterOrders orders m).filter
            (fun o => monthShort o.created_at == "Jan")).map Order.total).sum),
         ("Feb", (((filterOrders orders m).filter
            (fun o => monthShort o.created_at == "Feb")).map Order.total).sum),
         ("Mar", (((filterOrders orders m).filter
            (fun o => monthShort o.created_at == "Mar")).map Order.total).sum)] := by
  have hj := foldl_stepOrder_month (filterOrders orders m) initAgg "Jan"
  have hf := foldl_stepOrder_month (filterOrders orders m) initAgg "Feb"
  have hm := foldl_stepOrder_month (filterOrders orders m) initAgg "Mar"
  rw [show lookupD initAgg.monthlySales "Jan" = 0 from by decide, zero_add] at hj
  rw [show lookupD initAgg.monthlySales "Feb" = 0 from by decide, zero_add] at hf
  rw [show lookupD initAgg.monthlySales "Mar" = 0 from by decide, zero_add] at hm
  show [("Jan", lookupD (List.foldl stepOrder initAgg
          (filterOrders orders m)).monthlySales "Jan"),
        ("Feb", lookupD (List.foldl stepOrder initAgg
          (filterOrders orders m)).monthlySales "Feb"),
        ("Mar", lookupD (List.foldl stepOrder initAgg
          (filterOrders orders m)).monthlySales "Mar")] = _
  rw [hj, hf, hm]

theorem dashboard_bestSeller_closed (orders : List Order) (m : String) :
    (dashboardStats orders m).bestSeller
      = bestSellerOf (aggregate (filterOrders orders m)).productCount := rfl

theorem dashboard_statusChart_closed (orders : List Order) (m : String) :
    (dashboardStats orders m).statusChartData
      = [("Delivered", (dashboardStats orders m).delivered),
         ("Pending", (dashboardStats orders m).pending)] := rfl

theorem aggregate_keysNodup (orders : List Order) :
    keysNodup (aggregate orders).productCount := by
  rw [aggregate, foldl_stepOrder_productCount]
  exact keysNodup_foldl_pcStep orders initAgg.productCount
    (by simp [keysNodup, initAgg])

/-! ## Concrete scenarios from the specification -/

/-- Three January orders totaling 79, 89 (delivered) and 200 (pending). -/
def janOrders : List Order :=
  [⟨1, none, "[]", 79, "pending", "addr", "12345", ⟨0⟩⟩,
   ⟨2, none, "[]", 89, "delivered", "addr", "12345", ⟨0⟩⟩,
   ⟨3, none, "[]", 200, "pending", "addr", "12345", ⟨0⟩⟩]

/-- One order placed in April. -/
def aprOrder : Order := ⟨1, none, "[]", 50, "pending", "addr", "12345", ⟨3⟩⟩

/-- One order whose snapshot holds product A and product B one unit each,
A first. -/
def tieOrder : Order :=
  ⟨1, none, stringifyItems [⟨"A", 10, 1⟩, ⟨"B", 10, 1⟩], 20, "pending",
   "addr", "12345", ⟨0⟩⟩

/-- Two orders with two units of A each and one order with one unit
of B. -/
def sellerOrders : List Order :=
  [⟨1, none, stringifyItems [⟨"A", 10, 2⟩], 20, "pending", "addr", "12345", ⟨0⟩⟩,
   ⟨2, none, stringifyItems [⟨"A", 10, 2⟩], 20, "pending", "addr", "12345", ⟨0⟩⟩,
   ⟨3, none, stringifyItems [⟨"B", 10, 1⟩], 10, "pending", "addr", "12345", ⟨0⟩⟩]

/-- An order whose stored snapshot is not parseable. -/
def badOrder : Order :=
  ⟨9, none, "oops", 5, "delivered", "addr", "12345", ⟨0⟩⟩

/-- An order with a well-formed stored snapshot. -/
def goodOrder : Order :=
  ⟨8, none, stringifyItems [⟨"A", 79, 1⟩], 79, "pending", "addr", "12345", ⟨0⟩⟩

/-! ## The claims -/

/-- C1: for every order list and month filter, the dashboard reports
totalOrders as the number of filtered orders, totalRevenue as the sum of
their totals, delivered as the count of filtered orders whose
lower-cased status is delivered, pending as the count of all remaining
filtered orders; on the three January orders of 79, 89 (delivered) and
200 (pending), the Jan dashboard reports 3, 368, 1 and 2. -/
theorem dashboard_totals :
    (∀ (orders : List Order) (m : String),
      (dashboardStats orders m).totalOrders = (filterOrders orders m).length
      ∧ (dashboardStats orders m).totalRevenue
          = ((filterOrders orders m).map Order.total).sum
      ∧ (dashboardStats orders m).delivered
          = (filterOrders orders m).countP
              (fun o => toLowerStr o.status == "delivered")
      ∧ (dashboardStats orders m).pending
          = (filterOrders orders m).countP
              (fun o => !(toLowerStr o.status == "delivered")))
    ∧ (dashboardStats janOrders "Jan").totalOrders = 3
    ∧ (dashboardStats janOrders "Jan").totalRevenue = 368
    ∧ (dashboardStats janOrders "Jan").delivered = 1
    ∧ (dashboardStats janOrders "Jan").pending = 2 :=
  ⟨fun orders m =>
    ⟨dashboard_totalOrders_closed orders m, dashboard_revenue_closed orders m,
     dashboard_delivered_closed orders m, dashboard_pending_closed orders m⟩,
   by decide, by decide, by decide, by decide⟩

/-- C2 counterexample: an order created in April passes the filter, yet
no entry of the returned monthly-sales chart carries the key Apr, so a
month outside Jan, Feb, Mar with an order does not appear in the
output. -/
theorem salesChart_drops_april :
    (∃ o ∈ filterOrders [aprOrder] "All", monthShort o.created_at = "Apr")
    ∧ ∀ e ∈ (dashboardStats [aprOrder] "All").salesChartData,
        ¬ e.1 = "Apr" := by
  decide

/-- C2 (amended): the monthly-sales chart returned by the dashboard
always consists of exactly the three entries Jan, Feb, Mar, each holding
the summed totals of the filtered orders of that month (zero when there
are none); any other month never appears in the returned chart, even
when filtered orders fall in it (such orders are accumulated in an
internal map that the returned chart projection drops). -/
theorem salesChart_fixed_months (orders : List Order) (m : String) :
    (dashboardStats orders m).salesChartData
      = [("Jan", (((filterOrders orders m).filter
            (fun o => monthShort o.created_at == "Jan")).map Order.total).sum),
         ("Feb", (((filterOrders orders m).filter
            (fun o => monthShort o.created_at == "Feb")).map Order.total).sum),
         ("Mar", (((filterOrders orders m).filter
            (fun o => monthShort o.created_at == "Mar")).map Order.total).sum)] :=
  dashboard_salesChart_closed orders m

/-- C3: an unparseable snapshot never aborts the dashboard computation:
revenue and the delivered and pending counts are still those of all
filtered orders, while the product tally equals the tally of the
parseable filtered orders only. -/
theorem dashboard_failsoft (orders : List Order) (m : String)
    (_hbad : ∃ o ∈ orders, parseItems o.items = none) :
    (dashboardStats orders m).totalRevenue
        = ((filterOrders orders m).map Order.total).sum
    ∧ (dashboardStats orders m).delivered
        = (filterOrders orders m).countP
            (fun o => toLowerStr o.status == "delivered")
    ∧ (dashboardStats orders m).pending
        = (filterOrders orders m).countP
            (fun o => !(toLowerStr o.status == "delivered"))
    ∧ (aggregate (filterOrders orders m)).productCount
        = (aggregate ((filterOrders orders m).filter
            (fun o => (parseItems o.items).isSome))).productCount := by
  refine ⟨dashboard_revenue_closed orders m, dashboard_delivered_closed orders m,
    dashboard_pending_closed orders m, ?_⟩
  rw [aggregate, aggregate, foldl_stepOrder_productCount,
    foldl_stepOrder_productCount]
  exact foldl_pcStep_filter (filterOrders orders m) initAgg.productCount

/-- Witness for C3 at a two-order list holding one unparseable
snapshot. -/
theorem dashboard_failsoft_witness :
    (∃ o ∈ [goodOrder, badOrder], parseItems o.items = none)
    ∧ ((dashboardStats [goodOrder, badOrder] "All").totalRevenue
          = ((filterOrders [goodOrder, badOrder] "All").map Order.total).sum
      ∧ (dashboardStats [goodOrder, badOrder] "All").delivered
          = (filterOrders [goodOrder, badOrder] "All").countP
              (fun o => toLowerStr o.status == "delivered")
      ∧ (dashboardStats [goodOrder, badOrder] "All").pending
          = (filterOrders [goodOrder, badOrder] "All").countP
              (fun o => !(toLowerStr o.status == "delivered"))
      ∧ (aggregate (filterOrders [goodOrder, badOrder] "All")).productCount
          = (aggregate ((filterOrders [goodOrder, badOrder] "All").filter
              (fun o => (parseItems o.items).isSome))).productCount) :=
  ⟨by decide, dashboard_failsoft [goodOrder, badOrder] "All" (by decide)⟩

/-- C4 counterexample: with products A and B tallied at equal quantity
and A encountered first, the code reports B, so ties are not broken in
favour of the first-encountered key. -/
theorem bestSeller_tie_last :
    (aggregate (filterOrders [tieOrder] "All")).productCount
      = [("A", 1), ("B", 1)]
    ∧ (dashboardStats [tieOrder] "All").bestSeller = "B" := by
  decide

/-- C4 (amended): the best-seller of a nonempty product tally is the
last-encountered key holding the maximal accumulated quantity (earlier
keys tally at most as much, later keys strictly less); an empty tally
yields the sentinel string; the two-orders-of-A-versus-one-B scenario
yields A. -/
theorem bestSeller_spec (orders : List Order) (m : String) :
    ((aggregate (filterOrders orders m)).productCount = []
      → (dashboardStats orders m).bestSeller = "Loading...")
    ∧ (¬ (aggregate (filterOrders orders m)).productCount = []
      → ∃ v pre post,
          (aggregate (filterOrders orders m)).productCount
            = pre ++ ((dashboardStats orders m).bestSeller, v) :: post
          ∧ (∀ e ∈ pre, e.2 ≤ v) ∧ (∀ e ∈ post, e.2 < v))
    ∧ (dashboardStats sellerOrders "All").bestSeller = "A" := by
  refine ⟨?_, ?_, by decide⟩
  · intro h
    rw [dashboard_bestSeller_closed, h]
    rfl
  · intro h
    rw [dashboard_bestSeller_closed]
    exact bestSellerOf_spec _ (aggregate_keysNodup (filterOrders orders m)) h

/-- Witness for C4 at the two-orders-of-A-versus-one-B scenario. -/
theorem bestSeller_spec_witness :
    (¬ (aggregate (filterOrders sellerOrders "All")).productCount = [])
    ∧ ∃ v pre post,
        (aggregate (filterOrders sellerOrders "All")).productCount
          = pre ++ ((dashboardStats sellerOrders "All").bestSeller, v) :: post
        ∧ (∀ e ∈ pre, e.2 ≤ v) ∧ (∀ e ∈ post, e.2 < v) :=
  ⟨by decide, (bestSeller_spec sellerOrders "All").2.1 (by decide)⟩

/-- The invalid payload of the C5 counterexample: empty item list, empty
address, empty contact. -/
def invalidReq : OrderReq := ⟨[], 0, "", "", none⟩

/-- C5 counterexample: the clearly invalid payload is not rejected: the
endpoint still appends one ledger row and responds with the fresh order
id. -/
theorem placeOrder_accepts_invalid :
    validOrderPayload invalidReq = false
    ∧ (placeOrder [] invalidReq 1 ⟨0⟩).1.length = 1
    ∧ (placeOrder [] invalidReq 1 ⟨0⟩).2 = 1 := by
  decide

/-- C5 (amended): the order endpoint performs no payload validation at
all: every request, valid or not, appends exactly one ledger row
(stored with the serialized snapshot and status pending) and responds
with the fresh order id; no request is rejected. -/
theorem placeOrder_always_appends (ledger : List Order) (r : OrderReq)
    (newId : Nat) (now : Timestamp) :
    (placeOrder ledger r newId now).1 = ledger ++ [mkOrderRow r newId now]
    ∧ (placeOrder ledger r newId now).1.length = ledger.length + 1
    ∧ (placeOrder ledger r newId now).2 = newId
    ∧ (mkOrderRow r newId now).status = "pending" :=
  ⟨rfl, by simp [placeOrder], rfl, rfl⟩

/-- The valid payload used as the C6 witness. -/
def validReq : OrderReq :=
  ⟨[⟨"NIORA Red Wine Soap", 79, 2⟩, ⟨"NIORA Charcoal Soap", 89, 1⟩],
   247, "Hubli, Karnataka", "9876543210", some 7⟩

/-- C6: every valid order submission appends exactly one ledger row, and
re-parsing the stored serialized snapshot of that row reproduces the
submitted item list exactly. -/
theorem placeOrder_roundtrip (ledger : List Order) (r : OrderReq)
    (newId : Nat) (now : Timestamp)
    (_hv : validOrderPayload r = true) :
    ∃ row, (placeOrder ledger r newId now).1 = ledger ++ [row]
      ∧ parseItems row.items = some r.items :=
  ⟨mkOrderRow r newId now, rfl, parseItems_stringify r.items⟩

/-- Witness for C6 at a concrete valid payload. -/
theorem placeOrder_roundtrip_witness :
    validOrderPayload validReq = true
    ∧ ∃ row, (placeOrder [] validReq 1 ⟨0⟩).1 = [] ++ [row]
        ∧ parseItems row.items = some validReq.items :=
  ⟨by decide, placeOrder_roundtrip [] validReq 1 ⟨0⟩ (by decide)⟩

/-- C7: on every privileged route, a request without a bearer token is
rejected 401; a present token that does not verify (not decodable, wrong
signature, or expired) is rejected 403; a verified token whose role is
not admin is rejected 403; a verified admin token reaches the handler;
and only verified, unexpired admin tokens ever do. -/
theorem admin_gate_spec (decode : String → Option JwtToken) (secret : String)
    (now : Nat) (hdr : Option String) :
    (extractToken hdr = none
      → adminGate (jwtVerify decode secret now) hdr = .status 401)
    ∧ (∀ t, extractToken hdr = some t
        → jwtVerify decode secret now t = none
        → adminGate (jwtVerify decode secret now) hdr = .status 403)
    ∧ (∀ t tok, extractToken hdr = some t → decode t = some tok
        → (¬ tok.secret = secret ∨ tok.exp ≤ now)
        → adminGate (jwtVerify decode secret now) hdr = .status 403)
    ∧ (∀ t u, extractToken hdr = some t
        → jwtVerify decode secret now t = some u → ¬ u.role = "admin"
        → adminGate (jwtVerify decode secret now) hdr = .status 403)
    ∧ (∀ t u, extractToken hdr = some t
        → jwtVerify decode secret now t = some u → u.role = "admin"
        → adminGate (jwtVerify decode secret now) hdr = .granted u)
    ∧ (∀ u, adminGate (jwtVerify decode secret now) hdr = .granted u
        → u.role = "admin"
          ∧ ∃ t tok, extractToken hdr = some t ∧ decode t = some tok
              ∧ tok.secret = secret ∧ now < tok.exp ∧ tok.claims = u) := by
  have hnone : ∀ (verify : String → Option JwtClaims),
      extractToken hdr = none
        → authenticateToken verify hdr = .status 401 := by
    intro verify h
    rw [authenticateToken, h]
  have hsome : ∀ (verify : String → Option JwtClaims) (t : String),
      extractToken hdr = some t
        → authenticateToken verify hdr
          = match verify t with
            | none => GateResult.status 403
            | some u => GateResult.granted u := by
    intro verify t h
    rw [authenticateToken, h]
  refine ⟨?_, ?_, ?_, ?_, ?_, ?_⟩
  · intro h
    rw [adminGate, hnone _ h]
    rfl
  · intro t ht hv
    rw [adminGate, hsome _ t ht, hv]
    rfl
  · intro t tok ht hd hbad
    have hv : jwtVerify decode secret now t = none := by
      rw [jwtVerify, hd]
      show (if tok.secret = secret ∧ now < tok.exp
        then some tok.claims else none) = none
      rw [if_neg]
      rintro ⟨hs, he⟩
      rcases hbad with h1 | h2
      · exact h1 hs
      · omega
    rw [adminGate, hsome _ t ht, hv]
    rfl
  · intro t u ht hv hrole
    rw [adminGate, hsome _ t ht, hv]
    show isAdminGate (.granted u) = _
    rw [isAdminGate, if_pos hrole]
  · intro t u ht hv hrole
    rw [adminGate, hsome _ t ht, hv]
    show isAdminGate (.granted u) = _
    rw [isAdminGate, if_neg (fun hc => hc hrole)]
  · intro u hg
    rw [adminGate] at hg
    cases hext : extractToken hdr with
    | none =>
      rw [hnone _ hext] at hg
      simp [isAdminGate] at hg
    | some t =>
      rw [hsome _ t hext] at hg
      cases hv : jwtVerify decode secret now t with
      | none =>
        simp only [hv] at hg
        simp [isAdminGate] at hg
      | some u2 =>
        simp only [hv] at hg
        by_cases hrole : u2.role = "admin"
        · rw [isAdminGate, if_neg (fun hc => hc hrole)] at hg
          injection hg with hu
          rw [jwtVerify] at hv
          cases hd : decode t with
          | none => rw [hd] at hv; cases hv
          | some tok =>
            rw [hd] at hv
            have hv2 : (if tok.secret = secret ∧ now < tok.exp
                then some tok.claims else none) = some u2 := hv
            by_cases hcond : tok.secret = secret ∧ now < tok.exp
            · rw [if_pos hcond] at hv2
              injection hv2 with hc
              refine ⟨by rw [← hu]; exact hrole,
                t, tok, rfl, hd, hcond.1, hcond.2, by rw [hc, hu]⟩
            · rw [if_neg hcond] at hv2
              cases hv2
        · rw [isAdminGate, if_pos hrole] at hg
          cases hg

/-- The decoding environment of the C7 witness: one decodable token
string, signed with the server secret, expiring at instant 10, role
admin. -/
def demoDecode : String → Option JwtToken := fun s =>
  if s = "good" then some ⟨⟨1, "admin", "NIORA Admin"⟩, "niora-secret-key", 10⟩
  else none

/-- Witness for C7: the three-way outcome at concrete requests, each
obtained from the gate theorem with its hypotheses discharged. -/
theorem admin_gate_spec_witness :
    adminGate (jwtVerify demoDecode "niora-secret-key" 5) none = .status 401
    ∧ adminGate (jwtVerify demoDecode "niora-secret-key" 5)
        (some "Bearer stale") = .status 403
    ∧ adminGate (jwtVerify demoDecode "niora-secret-key" 20)
        (some "Bearer good") = .status 403
    ∧ adminGate (jwtVerify demoDecode "niora-secret-key" 5)
        (some "Bearer good") = .granted ⟨1, "admin", "NIORA Admin"⟩ :=
  ⟨(admin_gate_spec demoDecode "niora-secret-key" 5 none).1 (by decide),
   (admin_gate_spec demoDecode "niora-secret-key" 5
      (some "Bearer stale")).2.1 "stale" (by decide) (by decide),
   (admin_gate_spec demoDecode "niora-secret-key" 20
      (some "Bearer good")).2.2.1 "good"
      ⟨⟨1, "admin", "NIORA Admin"⟩, "niora-secret-key", 10⟩
      (by decide) (by decide) (by decide),
   (admin_gate_spec demoDecode "niora-secret-key" 5
      (some "Bearer good")).2.2.2.2.1 "good" ⟨1, "admin", "NIORA Admin"⟩
      (by decide) (by decide) (by decide)⟩

/-- C8: the dashboard is invariant under reordering of the fetched
orders: permuted inputs yield identical totals, delivered and pending
counts, monthly-sales chart and status chart (only the best-seller
tie-break may depend on the order). -/
theorem dashboard_perm_invariant (o1 o2 : List Order) (m : String)
    (hp : o1.Perm o2) :
    (dashboardStats o1 m).totalOrders = (dashboardStats o2 m).totalOrders
    ∧ (dashboardStats o1 m).totalRevenue = (dashboardStats o2 m).totalRevenue
    ∧ (dashboardStats o1 m).delivered = (dashboardStats o2 m).delivered
    ∧ (dashboardStats o1 m).pending = (dashboardStats o2 m).pending
    ∧ (dashboardStats o1 m).salesChartData = (dashboardStats o2 m).salesChartData
    ∧ (dashboardStats o1 m).statusChartData
        = (dashboardStats o2 m).statusChartData := by
  have hf : (filterOrders o1 m).Perm (filterOrders o2 m) := by
    rw [filterOrders, filterOrders]
    split
    · exact hp
    · exact hp.filter _
  have hdel : (dashboardStats o1 m).delivered = (dashboardStats o2 m).delivered := by
    rw [dashboard_delivered_closed, dashboard_delivered_closed]
    exact hf.countP_eq _
  have hpen : (dashboardStats o1 m).pending = (dashboardStats o2 m).pending := by
    rw [dashboard_pending_closed, dashboard_pending_closed]
    exact hf.countP_eq _
  refine ⟨?_, ?_, hdel, hpen, ?_, ?_⟩
  · rw [dashboard_totalOrders_closed, dashboard_totalOrders_closed]
    exact hf.length_eq
  · rw [dashboard_revenue_closed, dashboard_revenue_closed]
    exact (hf.map Order.total).sum_eq
  · rw [dashboard_salesChart_closed, dashboard_salesChart_closed]
    rw [((hf.filter _).map Order.total).sum_eq,
      ((hf.filter _).map Order.total).sum_eq,
      ((hf.filter _).map Order.total).sum_eq]
  · rw [dashboard_statusChart_closed, dashboard_statusChart_closed, hdel, hpen]

/-- Witness for C8 at a concrete two-order list and its reversal. -/
theorem dashboard_perm_invariant_witness :
    ([goodOrder, badOrder].Perm [badOrder, goodOrder])
    ∧ ((dashboardStats [goodOrder, badOrder] "All").totalOrders
          = (dashboardStats [badOrder, goodOrder] "All").totalOrders
      ∧ (dashboardStats [goodOrder, badOrder] "All").totalRevenue
          = (dashboardStats [badOrder, goodOrder] "All").totalRevenue
      ∧ (dashboardStats [goodOrder, badOrder] "All").delivered
          = (dashboardStats [badOrder, goodOrder] "All").delivered
      ∧ (dashboardStats [goodOrder, badOrder] "All").pending
          = (dashboardStats [badOrder, goodOrder] "All").pending
      ∧ (dashboardStats [goodOrder, badOrder] "All").salesChartData
          = (dashboardStats [badOrder, goodOrder] "All").salesChartData
      ∧ (dashboardStats [goodOrder, badOrder] "All").statusChartData
          = (dashboardStats [badOrder, goodOrder] "All").statusChartData) :=
  ⟨List.Perm.swap badOrder goodOrder [],
   dashboard_perm_invariant [goodOrder, badOrder] [badOrder, goodOrder] "All"
     (List.Perm.swap badOrder goodOrder [])⟩

/-- C9: in a successful admin stats response, the chart value of every
product is the number of item lines naming it, one per line regardless
of the line quantity; consequently, whenever every line quantity is at
least one and some line naming the product exceeds one, the chart value
differs from the quantity tally that the dashboard accumulates over the
same orders. -/
theorem adminStats_counts_lines (orders : List Order) (st : AdminStats)
    (hs : computeAdminStats orders = some st) (p : String) :
    lookupD st.chartData p
      = (((allLines orders).filter (fun it => it.name == p)).length : Int)
    ∧ ((∀ it ∈ allLines orders, 1 ≤ it.quantity)
      → (∃ it ∈ allLines orders, it.name = p ∧ 1 < it.quantity)
      → ¬ lookupD st.chartData p
          = lookupD (aggregate orders).productCount p) := by
  have hchart : lookupD st.chartData p
      = (((allLines orders).filter (fun it => it.name == p)).length : Int) := by
    rw [computeAdminStats] at hs
    cases ha : adminSalesAux orders [] with
    | none => rw [ha] at hs; cases hs
    | some mm =>
      rw [ha] at hs
      injection hs with hst
      rw [← hst]
      have := adminSalesAux_lookup orders [] mm ha p
      rw [this]
      show lookupD [] p + _ = _
      rw [show lookupD [] p = 0 from rfl, zero_add]
  refine ⟨hchart, ?_⟩
  intro hall hex
  have hpc : lookupD (aggregate orders).productCount p
      = (((allLines orders).filter (fun it => it.name == p)).map
          Item.quantity).sum := by
    rw [aggregate, foldl_stepOrder_productCount]
    rw [lookupD_foldl_pcStep orders initAgg.productCount p]
    show lookupD [] p + _ = _
    rw [show lookupD [] p = 0 from rfl, zero_add]
  rw [hchart, hpc]
  have hlt : ((((allLines orders).filter
        (fun it => it.name == p)).map Item.quantity).length : Int)
      < (((allLines orders).filter (fun it => it.name == p)).map
          Item.quantity).sum := by
    apply length_lt_sum
    · intro x hx
      obtain ⟨it, hit, hxq⟩ := List.mem_map.mp hx
      rw [← hxq]
      exact hall it (List.mem_of_mem_filter hit)
    · obtain ⟨it, hit, hnm, hq⟩ := hex
      refine ⟨it.quantity, ?_, hq⟩
      apply List.mem_map_of_mem
      apply List.mem_filter.mpr
      exact ⟨hit, by simpa using hnm⟩
  rw [List.length_map] at hlt
  omega

/-- The order of the C9 witness: one line of product A with quantity
two. -/
def qtyOrder : Order :=
  ⟨1, none, stringifyItems [⟨"A", 10, 2⟩], 20, "pending", "addr", "12345", ⟨0⟩⟩

/-- The stats response of the C9 witness. -/
def qtyStats : AdminStats := ⟨20, 1, [("A", 1)]⟩

/-- Witness for C9: on the single quantity-two order, the chart holds 1
for product A while the dashboard tally holds 2. -/
theorem adminStats_counts_lines_witness :
    computeAdminStats [qtyOrder] = some qtyStats
    ∧ (∀ it ∈ allLines [qtyOrder], 1 ≤ it.quantity)
    ∧ (∃ it ∈ allLines [qtyOrder], it.name = "A" ∧ 1 < it.quantity)
    ∧ lookupD qtyStats.chartData "A"
        = (((allLines [qtyOrder]).filter (fun it => it.name == "A")).length : Int)
    ∧ ¬ lookupD qtyStats.chartData "A"
        = lookupD (aggregate [qtyOrder]).productCount "A" :=
  ⟨by decide, by decide, by decide,
   (adminStats_counts_lines [qtyOrder] qtyStats (by decide) "A").1,
   (adminStats_counts_lines [qtyOrder] qtyStats (by decide) "A").2
     (by decide) (by decide)⟩

/-- C10: the admin stats endpoint guards no parse: one unparseable
snapshot anywhere makes the whole computation fail, while the dashboard
aggregation over the same orders merely drops that order from the
product tally. -/
theorem adminStats_parse_fragile (orders : List Order)
    (hbad : ∃ o ∈ orders, parseItems o.items = none) :
    computeAdminStats orders = none
    ∧ (aggregate orders).productCount
        = (aggregate (orders.filter
            (fun o => (parseItems o.items).isSome))).productCount := by
  constructor
  · rw [computeAdminStats, adminSalesAux_none orders [] hbad]
  · rw [aggregate, aggregate, foldl_stepOrder_productCount,
      foldl_stepOrder_productCount]
    exact foldl_pcStep_filter orders initAgg.productCount

/-- Witness for C10 at a two-order list holding one unparseable
snapshot. -/
theorem adminStats_parse_fragile_witness :
    (∃ o ∈ [badOrder, goodOrder], parseItems o.items = none)
    ∧ (computeAdminStats [badOrder, goodOrder] = none
      ∧ (aggregate [badOrder, goodOrder]).productCount
          = (aggregate ([badOrder, goodOrder].filter
              (fun o => (parseItems o.items).isSome))).productCount) :=
  ⟨by decide, adminStats_parse_fragile [badOrder, goodOrder] (by decide)⟩

end Niora
